import Mathlib

/-!
Verification of the media_organizer path-templating and organization engine.

The Python sources are shallowly embedded over lists of characters:

* paths are `List Char` (single file names / rendered template output) or
  `List (List Char)` (absolute paths as component lists, as produced by
  `Path.resolve()`);
* `MediaFile._get_file_type` / `extensions.get_media_type` become
  `getFileType`;
* `MediaFile.get_formatted_path` (src/media_file.py) becomes
  `getFormattedPath` built from `findPH`, `substitutionText`, `replaceAll`,
  `collapseSlashes` and `fixTrailingDot`;
* the simplified renderer of src/media_organizer_simple.py becomes
  `simpleGetFormattedPath`;
* `MediaOrganizer.find_media_files` becomes `findMediaFiles`;
* `MediaOrganizer.organize_files` becomes `organizeFiles`, and the executor
  loop of `ArchimediusGUI._run_organization_process` becomes
  `runOrganizationProcess`, both producing an explicit trace of callback
  events;
* the preview cache and filter of the GUI workflow become `PreviewState`,
  `filterPreview` and `applyFilter`.
-/

/-! ## Basic character and list utilities -/

/-- Boolean test that the first list is a leading segment of the second
(Python str.startswith / list slicing). -/
def listStarts {α : Type} [DecidableEq α] : List α → List α → Bool
  | [], _ => true
  | _ :: _, [] => false
  | a :: as, b :: bs => if a = b then listStarts as bs else false

/-- Boolean membership test for lists (Python in-operator over a list). -/
def memB {α : Type} [DecidableEq α] (x : α) : List α → Bool
  | [] => false
  | y :: ys => if x = y then true else memB x ys

/-- Boolean substring test (Python in-operator over strings). -/
def hasSub (pat : List Char) : List Char → Bool
  | [] => listStarts pat []
  | c :: rest => listStarts pat (c :: rest) || hasSub pat rest

/-- Lowercasing of a character sequence (Python str.lower on ASCII data). -/
def lowerL (l : List Char) : List Char := l.map Char.toLower

/-- Whitespace characters stripped by Python str.strip(). -/
def isPySpace (c : Char) : Bool :=
  c = ' ' || c = '\t' || c = '\n' || c = '\r' || c = '\x0b' || c = '\x0c'

/-- Embedding of Python str.strip(): drop whitespace from both ends. -/
def pyStrip (l : List Char) : List Char :=
  ((l.dropWhile isPySpace).reverse.dropWhile isPySpace).reverse

/-- Splits a character list on the slash separator (for path segments). -/
def splitSlash : List Char → List (List Char)
  | [] => [[]]
  | c :: rest =>
    let tail := splitSlash rest
    if c = '/' then [] :: tail
    else match tail with
      | [] => [[c]]
      | seg :: segs => (c :: seg) :: segs

/-- Joins path segments with single slashes. -/
def joinSlash : List (List Char) → List Char
  | [] => []
  | [seg] => seg
  | seg :: segs => seg ++ '/' :: joinSlash segs

/-! ## Path suffix (pathlib.PurePath.suffix) -/

/-- Last path component of a character-level path (pathlib name). -/
def lastComponent (l : List Char) : List Char :=
  (splitSlash l).getLastD []

/-- Embedding of pathlib suffix computation on a file name: the segment from
the last dot on, empty when the name has no dot, starts with its only dot,
or ends with a dot. -/
def suffixOfName (name : List Char) : List Char :=
  if '.' ∈ name then
    let after := name.reverse.takeWhile (fun c => ¬ c = '.')
    if after.length = 0 then []
    else if name.length - after.length - 1 = 0 then []
    else '.' :: after.reverse
  else []

/-- Embedding of Path(p).suffix for a character-level path. -/
def pathSuffixL (l : List Char) : List Char :=
  suffixOfName (lastComponent l)

/-! ## Extension registry and classifier

Embeds `extensions.DEFAULT_EXTENSIONS` and `MediaFile._get_file_type`
(src/media_file.py lines 53-59): the suffix is lowercased and looked up in
each category of the registry in order; no match yields the category
"unknown". -/

/-- Embedding of extensions.DEFAULT_EXTENSIONS from src/extensions.py. -/
def defaultExtensions : List (List Char × List (List Char)) :=
  [ ("audio".toList, [".mp3".toList, ".flac".toList, ".m4a".toList,
      ".aac".toList, ".ogg".toList, ".wav".toList]),
    ("video".toList, [".mp4".toList, ".mkv".toList, ".avi".toList,
      ".mov".toList, ".wmv".toList]),
    ("image".toList, [".jpg".toList, ".jpeg".toList, ".png".toList,
      ".gif".toList, ".bmp".toList, ".tiff".toList]),
    ("ebook".toList, [".epub".toList, ".pdf".toList, ".mobi".toList,
      ".azw".toList, ".azw3".toList, ".fb2".toList]) ]

/-- Embedding of MediaFile._get_file_type: lowercase the suffix of the path
and return the first registry category listing it, else "unknown". -/
def getFileType (path : List Char)
    (registry : List (List Char × List (List Char))) : List Char :=
  let ext := lowerL (pathSuffixL path)
  match registry with
  | [] => "unknown".toList
  | (ty, exts) :: rest =>
    if memB ext exts then ty else getFileType path rest

theorem getFileType_depends_only_on_lower_suffix
    (p₁ p₂ : List Char) (reg : List (List Char × List (List Char)))
    (h : lowerL (pathSuffixL p₁) = lowerL (pathSuffixL p₂)) :
    getFileType p₁ reg = getFileType p₂ reg := by
  induction reg with
  | nil => simp [getFileType]
  | cons kv rest ih =>
    simp only [getFileType, h]
    exact if_congr Iff.rfl rfl ih

/-- C9: classification lowercases the extension of the path, so two paths
whose suffixes agree up to case classify identically under every registry;
under the default registry Track.MP3 and Track.mp3 both classify as audio,
and an extension no category claims classifies as unknown. -/
theorem classify_case_insensitive_and_unknown :
    (∀ (p₁ p₂ : List Char) (reg : List (List Char × List (List Char))),
        lowerL (pathSuffixL p₁) = lowerL (pathSuffixL p₂) →
        getFileType p₁ reg = getFileType p₂ reg) ∧
    getFileType "Track.MP3".toList defaultExtensions = "audio".toList ∧
    getFileType "Track.mp3".toList defaultExtensions = "audio".toList ∧
    getFileType "notes.xyz".toList defaultExtensions = "unknown".toList := by
  refine ⟨getFileType_depends_only_on_lower_suffix, ?_, ?_, ?_⟩ <;> decide

/-- Witness for C9: the case-insensitivity clause applied at the concrete
paths Track.MP3 and Track.mp3 over the default registry. -/
theorem classify_case_insensitive_witness :
    getFileType "Track.MP3".toList defaultExtensions
      = getFileType "Track.mp3".toList defaultExtensions :=
  classify_case_insensitive_and_unknown.1
    "Track.MP3".toList "Track.mp3".toList defaultExtensions (by decide)

/-! ## Placeholder scanning

Embeds the two placeholder scanners of the sources.  The renderer in
src/media_file.py uses re.findall over a pattern that accepts a nonempty
brace-free name between braces; on an inner opening brace the regex engine
restarts the match there.  The simplified renderer of
src/media_organizer_simple.py uses a pattern whose name part accepts any
character except a closing brace. -/

/-- Scanner state walk for the media_file.py placeholder pattern; the second
argument holds the reversed partial name once an opening brace was seen. -/
def findPHAux : List Char → Option (List Char) → List (List Char)
  | [], _ => []
  | c :: rest, none =>
    if c = '{' then findPHAux rest (some []) else findPHAux rest none
  | c :: rest, some acc =>
    if c = '}' then
      if acc = [] then findPHAux rest none
      else acc.reverse :: findPHAux rest none
    else if c = '{' then findPHAux rest (some [])
    else findPHAux rest (some (c :: acc))

/-- Placeholders of a template in scan order, with duplicates, as re.findall
produces them in MediaFile.get_formatted_path. -/
def findPH (t : List Char) : List (List Char) := findPHAux t none

/-- Scanner state walk for the media_organizer_simple.py placeholder pattern,
whose name part may contain opening braces. -/
def findPHSimpleAux : List Char → Option (List Char) → List (List Char)
  | [], _ => []
  | c :: rest, none =>
    if c = '{' then findPHSimpleAux rest (some []) else findPHSimpleAux rest none
  | c :: rest, some acc =>
    if c = '}' then
      if acc = [] then findPHSimpleAux rest none
      else acc.reverse :: findPHSimpleAux rest none
    else findPHSimpleAux rest (some (c :: acc))

/-- Placeholders found by the simplified renderer. -/
def findPHSimple (t : List Char) : List (List Char) := findPHSimpleAux t none

/-! ## String replacement (Python str.replace) -/

/-- Replacement walk for a fixed nonempty pattern: at each position the
pattern is either consumed wholesale and the replacement emitted, or one
character is kept; matches are non-overlapping and leftmost, exactly as in
Python str.replace.  The fuel argument only forces structural recursion and
is irrelevant whenever it bounds the length of the scanned list. -/
def replaceGo (p : Char) (ps rep : List Char) : Nat → List Char → List Char
  | _, [] => []
  | 0, s => s
  | fuel + 1, c :: rest =>
    if listStarts (p :: ps) (c :: rest) then
      rep ++ replaceGo p ps rep fuel (rest.drop ps.length)
    else
      c :: replaceGo p ps rep fuel rest

/-- Embedding of Python str.replace (all occurrences); an empty pattern
leaves the string unchanged (never exercised: every pattern used below is a
braced placeholder). -/
def replaceAll (s pat rep : List Char) : List Char :=
  match pat with
  | [] => s
  | p :: ps => replaceGo p ps rep s.length s

theorem replaceGo_fuel (p : Char) (ps rep : List Char) :
    ∀ (f₁ : Nat) (s : List Char) (f₂ : Nat), s.length ≤ f₁ → s.length ≤ f₂ →
      replaceGo p ps rep f₁ s = replaceGo p ps rep f₂ s := by
  intro f₁
  induction f₁ with
  | zero =>
    intro s f₂ h1 _
    have hs : s = [] := List.eq_nil_of_length_eq_zero (Nat.le_zero.mp h1)
    subst hs
    cases f₂ <;> rfl
  | succ k ih =>
    intro s f₂ h1 h2
    cases s with
    | nil => cases f₂ <;> rfl
    | cons c rest =>
      cases f₂ with
      | zero => simp at h2
      | succ j =>
        simp only [List.length_cons, Nat.add_le_add_iff_right] at h1 h2
        simp only [replaceGo]
        by_cases hm : listStarts (p :: ps) (c :: rest) = true
        · rw [if_pos hm, if_pos hm]
          have hd : (rest.drop ps.length).length ≤ rest.length := by
            simp [List.length_drop]
          exact congrArg (rep ++ ·)
            (ih _ j (le_trans hd h1) (le_trans hd h2))
        · rw [if_neg hm, if_neg hm]
          exact congrArg (c :: ·) (ih rest j h1 h2)

theorem replaceAll_nil (pat rep : List Char) : replaceAll [] pat rep = [] := by
  cases pat <;> rfl

theorem replaceAll_cons_match {p c : Char} {ps rest rep : List Char}
    (h : listStarts (p :: ps) (c :: rest) = true) :
    replaceAll (c :: rest) (p :: ps) rep
      = rep ++ replaceAll (rest.drop ps.length) (p :: ps) rep := by
  show replaceGo p ps rep (rest.length + 1) (c :: rest) = _
  simp only [replaceGo, if_pos h]
  exact congrArg (rep ++ ·)
    (replaceGo_fuel p ps rep rest.length _ _ (by simp [List.length_drop])
      le_rfl)

theorem replaceAll_cons_nomatch {p c : Char} {ps rest rep : List Char}
    (h : listStarts (p :: ps) (c :: rest) = false) :
    replaceAll (c :: rest) (p :: ps) rep = c :: replaceAll rest (p :: ps) rep := by
  show replaceGo p ps rep (rest.length + 1) (c :: rest) = _
  simp only [replaceGo, if_neg (by simp [h] : ¬ listStarts (p :: ps) (c :: rest) = true)]
  exact congrArg (c :: ·) (replaceGo_fuel p ps rep rest.length _ _ le_rfl le_rfl)

/-! ## Sanitization and substitution (MediaFile.get_formatted_path) -/

/-- Characters the renderer replaces in substituted values
(the regex class of media_file.py line 620). -/
def forbiddenChars : List Char := ['<', '>', ':', '"', '/', '\\', '|', '?', '*']

/-- Embedding of the underscore sanitization applied to substituted values
in src/media_file.py. -/
def sanitizeV (v : List Char) : List Char :=
  v.map (fun c => if memB c forbiddenChars then '_' else c)

/-- The literal Unknown sentinel. -/
def unknownL : List Char := "Unknown".toList

/-- Case-insensitive metadata lookup: the dict comprehension lowering every
key keeps the last binding for a lowered key, so the reversed list is
searched first-match. -/
def lookupLower (m : List (List Char × List Char)) (k : List Char) :
    Option (List Char) :=
  (m.reverse.find? (fun kv => decide (lowerL kv.1 = k))).map (fun kv => kv.2)

/-- Text substituted for one placeholder by MediaFile.get_formatted_path:
a missing, blank or sentinel-valued attribute substitutes the literal
Unknown, any other value is sanitized. -/
def substitutionText (m : List (List Char × List Char)) (p : List Char) :
    List Char :=
  match lookupLower m (lowerL p) with
  | none => unknownL
  | some v =>
    if pyStrip v = [] ∨ pyStrip v = unknownL then unknownL else sanitizeV v

/-! ## Post-processing of the rendered path -/

/-- Embedding of re.sub on two or more slashes: every run of slashes
collapses to a single slash. -/
def collapseSlashes : List Char → List Char
  | [] => []
  | [c] => [c]
  | c :: d :: rest =>
    if c = '/' ∧ d = '/' then collapseSlashes (d :: rest)
    else c :: collapseSlashes (d :: rest)

/-- Embedding of re.sub replacing one trailing period with an underscore. -/
def fixTrailingDot (l : List Char) : List Char :=
  if l.getLast? = some '.' then l.dropLast ++ ['_'] else l

/-! ## MediaFile.get_formatted_path (src/media_file.py lines 590-636) -/

/-- Try-block body of MediaFile.get_formatted_path: find the placeholders,
replace each (case-insensitively resolved, sanitized or defaulted to the
Unknown sentinel), collapse duplicate slashes and fix a trailing period.
On character-list inputs none of the steps can signal a Python exception,
so the body always succeeds. -/
def formatPathBody (t : List Char) (m : List (List Char × List Char)) :
    Except (List Char) (List Char) := do
  let phs := findPH t
  let substituted := phs.foldl
    (fun s p => replaceAll s ('{' :: (p ++ ['}'])) (substitutionText m p)) t
  let deduped := collapseSlashes substituted
  return fixTrailingDot deduped

/-- Embedding of MediaFile.get_formatted_path: the try-block result, with
the except-branch returning the bare file name. -/
def getFormattedPath (t : List Char) (m : List (List Char × List Char))
    (fallbackName : List Char) : List Char :=
  match formatPathBody t m with
  | .ok s => s
  | .error _ => fallbackName

/-- Unfolding equation for the renderer used throughout. -/
theorem getFormattedPath_eq (t : List Char) (m : List (List Char × List Char))
    (fb : List Char) :
    getFormattedPath t m fb =
      fixTrailingDot (collapseSlashes ((findPH t).foldl
        (fun s p => replaceAll s ('{' :: (p ++ ['}'])) (substitutionText m p))
        t)) := rfl

/-! ## Simplified renderer (src/media_organizer_simple.py lines 197-232) -/

/-- Hyphen sanitization of the simplified renderer. -/
def simpleSanitize (v : List Char) : List Char :=
  v.map (fun c => if memB c forbiddenChars then '-' else c)

/-- Text substituted by the simplified renderer: exact-key dict get with the
Unknown default, then hyphen sanitization. -/
def simpleSubText (m : List (List Char × List Char)) (p : List Char) :
    List Char :=
  match (m.find? (fun kv => decide (kv.1 = p))).map (fun kv => kv.2) with
  | none => simpleSanitize unknownL
  | some v => simpleSanitize v

/-- Placeholder substitution pass of the simplified renderer. -/
def simpleSubstituted (t : List Char) (m : List (List Char × List Char)) :
    List Char :=
  (findPHSimple t).foldl
    (fun s p => replaceAll s ('{' :: (p ++ ['}'])) (simpleSubText m p)) t

/-- Embedding of the simplified MediaFile.get_formatted_path: substitute the
placeholders, then append the original suffix of the file path unless the
result already ends with it or the template mentions the extension token. -/
def simpleGetFormattedPath (filePath : List Char)
    (m : List (List Char × List Char)) (t : List Char) : List Char :=
  let formatted := simpleSubstituted t m
  let ext := pathSuffixL filePath
  if listStarts ext.reverse formatted.reverse then formatted
  else if hasSub "\x7bextension\x7d".toList t then formatted
  else formatted ++ ext

/-! ## Helper lemmas about the utilities -/

theorem memB_iff {α : Type} [DecidableEq α] (x : α) (l : List α) :
    memB x l = true ↔ x ∈ l := by
  induction l with
  | nil => simp [memB]
  | cons y ys ih =>
    by_cases h : x = y <;> simp [memB, h, ih]

theorem listStarts_self_append {α : Type} [DecidableEq α] (l r : List α) :
    listStarts l (l ++ r) = true := by
  induction l with
  | nil => simp [listStarts]
  | cons a as ih => simp [listStarts, ih]

/-! ## C7: sanitization of substituted values -/

theorem sanitizeV_no_forbidden {c : Char} {v : List Char}
    (hc : c ∈ forbiddenChars) : c ∉ sanitizeV v := by
  intro hmem
  rcases List.mem_map.mp hmem with ⟨d, _, hcd⟩
  by_cases hm : memB d forbiddenChars = true
  · rw [if_pos hm] at hcd
    have : c ≠ '_' := by fin_cases hc <;> decide
    exact this hcd.symm
  · rw [if_neg hm] at hcd
    subst hcd
    exact hm ((memB_iff d forbiddenChars).mpr hc)

theorem substitutionText_no_forbidden
    (m : List (List Char × List Char)) (p : List Char) (c : Char)
    (hc : c ∈ forbiddenChars) : c ∉ substitutionText m p := by
  have hund : c ∉ unknownL := by
    fin_cases hc <;> decide
  unfold substitutionText
  cases h : lookupLower m (lowerL p) with
  | none => exact hund
  | some v =>
    show c ∉ (if pyStrip v = [] ∨ pyStrip v = unknownL then unknownL else sanitizeV v)
    by_cases hb : pyStrip v = [] ∨ pyStrip v = unknownL
    · rw [if_pos hb]; exact hund
    · rw [if_neg hb]; exact sanitizeV_no_forbidden hc

/-- C7: every value substituted by MediaFile.get_formatted_path has the
reserved characters replaced, so it contributes none of them to the
rendered path; on the spec example the rendered path is exactly
AC_DC_Live_Band_/Hit____Song__. -/
theorem render_sanitizes_forbidden_chars :
    (∀ (m : List (List Char × List Char)) (p : List Char) (c : Char),
        c ∈ forbiddenChars → c ∉ substitutionText m p) ∧
    getFormattedPath "{artist}/{title}".toList
      [("artist".toList, "AC/DC:Live*Band?".toList),
       ("title".toList, "Hit<>:\"Song\"|".toList)] "song.mp3".toList
      = "AC_DC_Live_Band_/Hit____Song__".toList := by
  exact ⟨substitutionText_no_forbidden, by decide⟩

/-- Witness for C7: the slash is a forbidden character, so the substitution
text for the artist attribute never contains it. -/
theorem render_sanitizes_forbidden_chars_witness :
    '/' ∉ substitutionText [("artist".toList, "AC/DC".toList)] "artist".toList :=
  render_sanitizes_forbidden_chars.1 _ _ '/' (by decide)

/-! ## C2: automatic extension append -/

/-- C2 evaluation: the renderer of src/media_file.py does not append the
original extension for a template holding only the filename token, while the
simplified renderer of src/media_organizer_simple.py does, matching the
repository test that pins the expected clip.mp4 result. -/
theorem filename_template_extension_divergence :
    getFormattedPath "{filename}".toList
      [("filename".toList, "clip".toList), ("extension".toList, "mp4".toList)]
      "clip.mp4".toList = "clip".toList ∧
    getFormattedPath "{filename}".toList
      [("filename".toList, "clip".toList), ("extension".toList, "mp4".toList)]
      "clip.mp4".toList ≠ "clip.mp4".toList ∧
    simpleGetFormattedPath "clip.mp4".toList
      [("filename".toList, "clip".toList), ("extension".toList, "mp4".toList)]
      "{filename}".toList = "clip.mp4".toList := by
  refine ⟨by decide, by decide, by decide⟩

/-- Supporting result: the simplified renderer always ends its output with
the original suffix whenever the template has no extension token. -/
theorem simpleGetFormattedPath_ends_with_suffix
    (filePath : List Char) (m : List (List Char × List Char)) (t : List Char)
    (hext : hasSub "\x7bextension\x7d".toList t = false) :
    listStarts (pathSuffixL filePath).reverse
      (simpleGetFormattedPath filePath m t).reverse = true := by
  unfold simpleGetFormattedPath
  by_cases h : listStarts (pathSuffixL filePath).reverse
      (simpleSubstituted t m).reverse = true
  · rw [if_pos h]; exact h
  · have hx : ¬ (hasSub "\x7bextension\x7d".toList t = true) := by
      intro hy
      rw [hext] at hy
      exact Bool.false_ne_true hy
    rw [if_neg h, if_neg hx]
    rw [List.reverse_append]
    exact listStarts_self_append _ _

/-! ## C10: total rendering with internal fallback -/

/-- C10: on character-level inputs the body of MediaFile.get_formatted_path
always succeeds, so the function always returns the body string and the
except-branch (which would return the bare file name) never propagates
anything. -/
theorem getFormattedPath_never_raises :
    ∀ (t : List Char) (m : List (List Char × List Char)) (fb : List Char),
      ∃ s, formatPathBody t m = Except.ok s ∧ getFormattedPath t m fb = s :=
  fun _ _ _ => ⟨_, rfl, rfl⟩

/-! ## C8 counterexample: malformed templates keep raw braces -/

/-- Counterexample for C8: a template made of one unmatched opening brace is
rendered verbatim, so the output contains a raw opening brace. -/
theorem render_brace_counterexample :
    '\x7b' ∈ getFormattedPath "\x7b".toList [] "file.mp3".toList := by
  decide

/-! ## C3: preview cache and incremental filter

The incremental preview filter is exercised by
src/tests/test_gui_filter_preview.py through the names _filter_preview,
_full_preview_data and _full_preview_count, but the implementation behind
those names is not among the sources; the definitions below model it from
the specification: one analyze pass fills an ordered full-record cache, and
every selection change derives the visible subset purely from that cache. -/

/-- Record of one previewed file: display source, display destination and
the full source path. -/
structure PreviewRec where
  displaySource : List Char
  displayDest : List Char
  fullPath : List Char
deriving DecidableEq

/-- State of the preview workflow: the cached unfiltered records, the total
count of the analyze pass, and the currently visible subset. -/
structure PreviewState where
  fullData : List PreviewRec
  fullCount : Nat
  visible : List PreviewRec
deriving DecidableEq

/-- Modelled from the spec: filter(fullRecords, selectedExtensions) derives
the records whose source extension is currently selected, purely from the
already-extracted records, with no re-scan and no re-extraction. -/
def filterPreview (full : List PreviewRec) (selected : List (List Char)) :
    List PreviewRec :=
  full.filter (fun r => memB (lowerL (pathSuffixL r.fullPath)) selected)

/-- Modelled from the spec: a selection change triggers exactly one filter
call and replaces the visible set; the cached records are not touched. -/
def applyFilter (st : PreviewState) (selected : List (List Char)) :
    PreviewState :=
  { st with visible := filterPreview st.fullData selected }

/-- Modelled from the spec: one analyze pass replaces the cache wholesale
and initially shows every sampled record. -/
def updatePreviewResults (data : List PreviewRec) (count : Nat) :
    PreviewState :=
  { fullData := data, fullCount := count, visible := data }

/-- Modelled from the spec: clearing the preview resets the cached records
and the count. -/
def clearPreview (_st : PreviewState) : PreviewState :=
  { fullData := [], fullCount := 0, visible := [] }

/-- The six preview records of the repository test, spanning audio, video,
image and ebook files. -/
def samplePreview : List PreviewRec :=
  [ ⟨"song.mp3".toList, "2024/Rock/song.mp3".toList, "/src/song.mp3".toList⟩,
    ⟨"song.flac".toList, "2024/Jazz/song.flac".toList, "/src/song.flac".toList⟩,
    ⟨"video.mp4".toList, "2024/video.mp4".toList, "/src/video.mp4".toList⟩,
    ⟨"photo.jpg".toList, "2024/photo.jpg".toList, "/src/photo.jpg".toList⟩,
    ⟨"book.epub".toList, "Author/Title/book.epub".toList, "/src/book.epub".toList⟩,
    ⟨"book.pdf".toList, "Author/Title/book.pdf".toList, "/src/book.pdf".toList⟩ ]

/-- Every sample extension selected. -/
def sampleAllSelected : List (List Char) :=
  [".mp3".toList, ".flac".toList, ".mp4".toList, ".jpg".toList,
   ".epub".toList, ".pdf".toList]

/-- The sample selection with both ebook extensions deselected. -/
def sampleNoEbook : List (List Char) :=
  [".mp3".toList, ".flac".toList, ".mp4".toList, ".jpg".toList]

/-- C3: filtering derives the visible subset purely from the cached records
(which it never mutates), preserves their order, is idempotent, and
re-selecting after a deselection restores exactly the original visible set;
on the six-record sample, deselecting the ebook extensions leaves the first
four records and re-selecting restores all six in order. -/
theorem preview_filter_pure_idempotent_roundtrip :
    (∀ (st : PreviewState) (sel : List (List Char)),
        (applyFilter st sel).fullData = st.fullData ∧
        (applyFilter st sel).fullCount = st.fullCount) ∧
    (∀ (full : List PreviewRec) (sel : List (List Char)),
        filterPreview (filterPreview full sel) sel = filterPreview full sel) ∧
    (∀ (full : List PreviewRec) (sel : List (List Char)),
        (filterPreview full sel).Sublist full) ∧
    (∀ (st : PreviewState) (sel sel₂ : List (List Char)),
        (applyFilter (applyFilter st sel₂) sel).visible
          = (applyFilter st sel).visible) ∧
    filterPreview samplePreview sampleNoEbook = samplePreview.take 4 ∧
    (applyFilter (applyFilter (updatePreviewResults samplePreview 6)
        sampleNoEbook) sampleAllSelected).visible = samplePreview := by
  refine ⟨fun st sel => ⟨rfl, rfl⟩, ?_, ?_, fun st sel sel₂ => rfl, by decide, by decide⟩
  · intro full sel
    simp [filterPreview, List.filter_filter]
  · intro full sel
    exact List.filter_sublist full

/-! ## C4: directory scanning with destination exclusion

Embeds MediaOrganizer.find_media_files (src/media_organizer.py lines
712-776).  Absolute resolved paths are component lists; the walk argument is
the ordered rglob enumeration of the source tree paired with the is_file
flag of each entry; stop_requested is false throughout a single-threaded
run, so the two loops (count, then collect) are the same filter applied
twice. -/

/-- Component paths of resolved absolute file-system paths. -/
abbrev PathC := List (List Char)

/-- String rendering of a resolved absolute component path, as used by the
startswith comparison of the two roots. -/
def strOfPath : PathC → List Char
  | [] => []
  | comp :: rest => '/' :: comp ++ strOfPath rest

/-- Suffix of a component path: the pathlib suffix of its last component. -/
def pathSuffixC (p : PathC) : List Char :=
  suffixOfName (p.getLastD [])

/-- Embedding of the per-file destination skip: when the file is relative to
the source, skip it when it is relative to the output root or equals the
mirrored destination path; when relative_to(source) would raise, the
exception handler falls through to processing the file. -/
def destSkip (src out f : PathC) : Bool :=
  if listStarts src f then
    listStarts out f || decide (f = out ++ f.drop src.length)
  else false

/-- Embedding of MediaOrganizer.find_media_files: the nested-destination
test compares the string renderings with startswith, each walked entry is
skipped when the destination check fires, and an entry is kept when it is a
file whose lowercased suffix is a supported extension.  The count of the
first loop and the enumeration of the second loop come from the same
filter. -/
def findMediaFiles (src : PathC) (outOpt : Option PathC)
    (allExts : List (List Char)) (walk : List (PathC × Bool)) :
    Nat × List PathC :=
  let destIn : Bool :=
    match outOpt with
    | none => false
    | some o => listStarts (strOfPath src) (strOfPath o)
  let keep : PathC × Bool → Bool := fun e =>
    let skipped : Bool :=
      match outOpt with
      | none => false
      | some o => destIn && e.2 && destSkip src o e.1
    !skipped && e.2 && memB (lowerL (pathSuffixC e.1)) allExts
  ((walk.filter keep).length, (walk.filter keep).map (fun e => e.1))

theorem listStarts_iff_append {α : Type} [DecidableEq α] (a b : List α) :
    listStarts a b = true ↔ ∃ r, b = a ++ r := by
  induction a generalizing b with
  | nil => simp [listStarts]
  | cons x xs ih =>
    cases b with
    | nil => simp [listStarts]
    | cons y ys =>
      by_cases h : x = y
      · subst h
        simp [listStarts, ih]
      · simp [listStarts, h, Ne.symm h]

theorem strOfPath_append (a b : PathC) :
    strOfPath (a ++ b) = strOfPath a ++ strOfPath b := by
  induction a with
  | nil => simp [strOfPath]
  | cons c rest ih => simp [strOfPath, ih]

theorem strOfPath_starts {a b : PathC} (h : listStarts a b = true) :
    listStarts (strOfPath a) (strOfPath b) = true := by
  rcases (listStarts_iff_append a b).mp h with ⟨r, rfl⟩
  rw [strOfPath_append]
  exact listStarts_self_append _ _

theorem destSkip_eq_under_out {src out f : PathC}
    (hf : listStarts src f = true) :
    destSkip src out f = listStarts out f := by
  unfold destSkip
  rw [if_pos hf]
  by_cases ho : listStarts out f = true
  · simp [ho]
  · simp only [Bool.not_eq_true] at ho
    simp only [ho, Bool.false_or]
    rw [decide_eq_false]
    intro heq
    rw [heq] at ho
    rw [listStarts_self_append] at ho
    exact Bool.true_eq_false ▸ ho.symm ▸ rfl

/-- C4: when the resolved destination root equals or descends from the
resolved source root, find_media_files excludes every walked file under the
destination root from both the preliminary count and the enumeration, and
keeps exactly the supported files outside it, in walk order. -/
theorem scan_excludes_nested_destination
    (src out : PathC) (exts : List (List Char)) (walk : List (PathC × Bool))
    (hnest : listStarts src out = true)
    (hwalk : ∀ e ∈ walk, listStarts src e.1 = true) :
    findMediaFiles src (some out) exts walk
      = ((walk.filter (fun e =>
            e.2 && memB (lowerL (pathSuffixC e.1)) exts
              && !listStarts out e.1)).length,
         (walk.filter (fun e =>
            e.2 && memB (lowerL (pathSuffixC e.1)) exts
              && !listStarts out e.1)).map (fun e => e.1)) := by
  have hdest : listStarts (strOfPath src) (strOfPath out) = true :=
    strOfPath_starts hnest
  have hfilter :
      walk.filter (fun e =>
        !(listStarts (strOfPath src) (strOfPath out) && e.2
            && destSkip src out e.1)
          && e.2 && memB (lowerL (pathSuffixC e.1)) exts)
      = walk.filter (fun e =>
        e.2 && memB (lowerL (pathSuffixC e.1)) exts
          && !listStarts out e.1) := by
    apply List.filter_congr
    intro e he
    rw [hdest, destSkip_eq_under_out (hwalk e he)]
    cases e.2 <;> cases hlo : listStarts out e.1 <;>
      cases memB (lowerL (pathSuffixC e.1)) exts <;> simp
  show ((walk.filter (fun e =>
      !(listStarts (strOfPath src) (strOfPath out) && e.2
          && destSkip src out e.1)
        && e.2 && memB (lowerL (pathSuffixC e.1)) exts)).length,
    (walk.filter (fun e =>
      !(listStarts (strOfPath src) (strOfPath out) && e.2
          && destSkip src out e.1)
        && e.2 && memB (lowerL (pathSuffixC e.1)) exts)).map (fun e => e.1))
    = _
  rw [hfilter]

/-- Witness for C4: a two-file walk in which only the file outside the
nested output directory survives the count and the enumeration. -/
theorem scan_excludes_nested_destination_witness :
    findMediaFiles ["s".toList] (some ["s".toList, "o".toList])
      [".mp3".toList]
      [ (["s".toList, "a.mp3".toList], true),
        (["s".toList, "o".toList, "b.mp3".toList], true),
        (["s".toList, "d".toList], false) ]
      = (1, [["s".toList, "a.mp3".toList]]) := by
  rw [scan_excludes_nested_destination _ _ _ _ (by decide) (by decide)]
  decide

/-! ## C5 and C6: organization executors

Embeds the per-file loop of MediaOrganizer.organize_files
(src/media_organizer.py lines 786-851) and of
ArchimediusGUI._run_organization_process (src/archimedius_gui.py lines
1472-1592).  Callback invocations and per-file error logging become an
explicit event trace; the cooperative stop flag is a function of the number
of checks performed so far, covering any moment at which another thread
sets it; the success of one copy/move attempt is an oracle on the file
path. -/

/-- Observable events of one organization run: a progress callback, a
logged per-file error, and the terminal Complete callback. -/
inductive OrgEvent where
  | progress (processed total : Nat) (path : PathC)
  | errorLog (path : PathC)
  | complete (processed total : Nat)
deriving DecidableEq

/-- Recognizer of the terminal Complete callback. -/
def isCompleteEvent : OrgEvent → Bool
  | .complete _ _ => true
  | _ => false

/-- Loop of MediaOrganizer.organize_files over the found media files: stop
is polled once per iteration; a successful attempt increments the processed
count and fires the callback, a failed attempt only logs; the finally block
fires the Complete callback with the counts reached. -/
def organizeFilesGo (total : Nat) (stop : Nat → Bool) :
    List (PathC × Bool) → Nat → Nat → List OrgEvent × Nat
  | [], _, p => ([OrgEvent.complete p total], p)
  | f :: rest, t, p =>
    if stop t then ([OrgEvent.complete p total], p)
    else if f.2 then
      let r := organizeFilesGo total stop rest (t + 1) (p + 1)
      (OrgEvent.progress (p + 1) total f.1 :: r.1, r.2)
    else
      let r := organizeFilesGo total stop rest (t + 1) p
      (OrgEvent.errorLog f.1 :: r.1, r.2)

/-- Embedding of MediaOrganizer.organize_files: each found file is paired
with the success of its copy/move attempt. -/
def organizeFiles (files : List (PathC × Bool)) (total : Nat)
    (stop : Nat → Bool) : List OrgEvent × Nat :=
  organizeFilesGo total stop files 0 0

/-- Nested-destination test of the GUI executor: the roots must differ and
relative_to must succeed, so the output is a strict descendant. -/
def guiDestIn (src out : PathC) : Bool :=
  if out = src then false else listStarts src out

/-- Per-entry skip of the GUI executor, gated on the nested-destination
test and the is_file flag. -/
def guiSkip (src out : PathC) (f : PathC) (isFile : Bool) : Bool :=
  guiDestIn src out && isFile && destSkip src out f

/-- An entry of the GUI executor walk is attempted when it survives the
destination skip, is a file, and carries a selected extension. -/
def guiEligible (src out : PathC) (selected : List (List Char))
    (e : PathC × Bool) : Bool :=
  !guiSkip src out e.1 e.2 && e.2
    && memB (lowerL (pathSuffixC e.1)) selected

/-- Counting loop of the GUI executor; returns the total and the number of
stop checks consumed. -/
def guiCountGo (src out : PathC) (selected : List (List Char))
    (stop : Nat → Bool) : List (PathC × Bool) → Nat → Nat → Nat × Nat
  | [], t, acc => (acc, t)
  | e :: rest, t, acc =>
    if stop t then (acc, t + 1)
    else guiCountGo src out selected stop rest (t + 1)
      (acc + if guiEligible src out selected e then 1 else 0)

/-- Processing loop of the GUI executor: every attempted entry increments
the processed count and fires the progress callback after the attempt,
whether the copy succeeded (no extra event) or failed (a logged error). -/
def guiProcessGo (src out : PathC) (selected : List (List Char))
    (copyOk : PathC → Bool) (total : Nat) (stop : Nat → Bool) :
    List (PathC × Bool) → Nat → Nat → List OrgEvent × Nat
  | [], _, p => ([], p)
  | e :: rest, t, p =>
    if stop t then ([], p)
    else if guiEligible src out selected e then
      let r := guiProcessGo src out selected copyOk total stop rest (t + 1) (p + 1)
      ((if copyOk e.1 then [] else [OrgEvent.errorLog e.1])
        ++ OrgEvent.progress (p + 1) total e.1 :: r.1, r.2)
    else guiProcessGo src out selected copyOk total stop rest (t + 1) p

/-- Embedding of ArchimediusGUI._run_organization_process: count pass, then
processing pass, then the terminal Complete callback. -/
def runOrganizationProcess (src out : PathC) (selected : List (List Char))
    (copyOk : PathC → Bool) (stop : Nat → Bool)
    (walk : List (PathC × Bool)) : List OrgEvent × Nat :=
  let c := guiCountGo src out selected stop walk 0 0
  let r := guiProcessGo src out selected copyOk c.1 stop walk c.2 0
  (r.1 ++ [OrgEvent.complete r.2 c.1], r.2)

/-- Expected event block of the GUI executor over the attempted entries:
for each entry, a logged error exactly when the attempt failed, then one
progress callback with the incremented count. -/
def progressEvents (total : Nat) (copyOk : PathC → Bool) :
    List (PathC × Bool) → Nat → List OrgEvent
  | [], _ => []
  | e :: rest, p =>
    (if copyOk e.1 then [] else [OrgEvent.errorLog e.1])
      ++ OrgEvent.progress (p + 1) total e.1
        :: progressEvents total copyOk rest (p + 1)

theorem guiCountGo_no_stop (src out : PathC) (selected : List (List Char))
    (stop : Nat → Bool) (hstop : ∀ n, stop n = false) :
    ∀ (walk : List (PathC × Bool)) (t acc : Nat),
      guiCountGo src out selected stop walk t acc
        = (acc + (walk.filter (guiEligible src out selected)).length, t + walk.length) := by
  intro walk
  induction walk with
  | nil => intro t acc; simp [guiCountGo]
  | cons e rest ih =>
    intro t acc
    rw [guiCountGo, if_neg (by simp [hstop])]
    rw [ih]
    by_cases he : guiEligible src out selected e = true
    · simp [he, List.filter_cons, List.length_cons]
      omega
    · simp only [Bool.not_eq_true] at he
      simp [he, List.filter_cons, List.length_cons]
      omega

theorem guiProcessGo_no_stop (src out : PathC) (selected : List (List Char))
    (copyOk : PathC → Bool) (total : Nat) (stop : Nat → Bool)
    (hstop : ∀ n, stop n = false) :
    ∀ (walk : List (PathC × Bool)) (t p : Nat),
      guiProcessGo src out selected copyOk total stop walk t p
        = (progressEvents total copyOk (walk.filter (guiEligible src out selected)) p,
           p + (walk.filter (guiEligible src out selected)).length) := by
  intro walk
  induction walk with
  | nil => intro t p; simp [guiProcessGo, progressEvents]
  | cons e rest ih =>
    intro t p
    rw [guiProcessGo, if_neg (by simp [hstop])]
    by_cases he : guiEligible src out selected e = true
    · rw [if_pos he]
      simp only [List.filter_cons, he, if_pos rfl]
      rw [ih]
      simp [progressEvents]
      omega
    · simp only [Bool.not_eq_true] at he
      rw [if_neg (by simp [he])]
      rw [ih]
      simp [List.filter_cons, he]

/-- C5: with no cancellation, the GUI executor fires the progress callback
exactly once after each attempted entry, with the running count, the total
of the count pass and the current path, whether the attempt succeeded or
failed (a failure only adds a logged error), and every subsequent entry is
still attempted; the whole run is the per-entry blocks followed by the
terminal Complete callback. -/
theorem executor_progress_once_per_attempt
    (src out : PathC) (selected : List (List Char)) (copyOk : PathC → Bool)
    (stop : Nat → Bool) (walk : List (PathC × Bool))
    (hstop : ∀ n, stop n = false) :
    runOrganizationProcess src out selected copyOk stop walk
      = (progressEvents (walk.filter (guiEligible src out selected)).length
            copyOk (walk.filter (guiEligible src out selected)) 0
          ++ [OrgEvent.complete
                (walk.filter (guiEligible src out selected)).length
                (walk.filter (guiEligible src out selected)).length],
         (walk.filter (guiEligible src out selected)).length) := by
  simp only [runOrganizationProcess]
  rw [guiCountGo_no_stop src out selected stop hstop]
  rw [guiProcessGo_no_stop src out selected copyOk _ stop hstop]
  simp

/-- Witness for C5: a three-entry walk whose middle attempt fails still
produces one progress callback per attempted entry and then completes. -/
theorem executor_progress_once_per_attempt_witness :
    runOrganizationProcess ["s".toList] ["t".toList] [".mp3".toList]
      (fun p => decide (p ≠ ["s".toList, "b.mp3".toList]))
      (fun _ => false)
      [ (["s".toList, "a.mp3".toList], true),
        (["s".toList, "b.mp3".toList], true),
        (["s".toList, "c.mp3".toList], true) ]
      = ([OrgEvent.progress 1 3 ["s".toList, "a.mp3".toList],
          OrgEvent.errorLog ["s".toList, "b.mp3".toList],
          OrgEvent.progress 2 3 ["s".toList, "b.mp3".toList],
          OrgEvent.progress 3 3 ["s".toList, "c.mp3".toList],
          OrgEvent.complete 3 3], 3) := by
  rw [executor_progress_once_per_attempt _ _ _ _ _ _ (fun n => rfl)]
  decide

theorem organizeFilesGo_shape (total : Nat) (stop : Nat → Bool) :
    ∀ (files : List (PathC × Bool)) (t p : Nat),
      ∃ body,
        (organizeFilesGo total stop files t p).1
          = body ++ [OrgEvent.complete
              (organizeFilesGo total stop files t p).2 total] ∧
        ∀ e ∈ body, isCompleteEvent e = false := by
  intro files
  induction files with
  | nil => intro t p; exact ⟨[], rfl, by simp⟩
  | cons f rest ih =>
    intro t p
    by_cases hs : stop t = true
    · refine ⟨[], ?_, by simp⟩
      simp [organizeFilesGo, hs]
    · simp only [Bool.not_eq_true] at hs
      by_cases hf : f.2 = true
      · obtain ⟨body, hb, hc⟩ := ih (t + 1) (p + 1)
        refine ⟨OrgEvent.progress (p + 1) total f.1 :: body, ?_, ?_⟩
        · simp [organizeFilesGo, hs, hf, hb]
        · intro e he
          rcases List.mem_cons.mp he with rfl | he
          · rfl
          · exact hc e he
      · simp only [Bool.not_eq_true] at hf
        obtain ⟨body, hb, hc⟩ := ih (t + 1) p
        refine ⟨OrgEvent.errorLog f.1 :: body, ?_, ?_⟩
        · simp [organizeFilesGo, hs, hf, hb]
        · intro e he
          rcases List.mem_cons.mp he with rfl | he
          · rfl
          · exact hc e he

theorem guiProcessGo_no_complete (src out : PathC)
    (selected : List (List Char)) (copyOk : PathC → Bool) (total : Nat)
    (stop : Nat → Bool) :
    ∀ (walk : List (PathC × Bool)) (t p : Nat),
      ∀ e ∈ (guiProcessGo src out selected copyOk total stop walk t p).1,
        isCompleteEvent e = false := by
  intro walk
  induction walk with
  | nil => intro t p e he; simp [guiProcessGo] at he
  | cons f rest ih =>
    intro t p e he
    by_cases hs : stop t = true
    · simp [guiProcessGo, hs] at he
    · simp only [Bool.not_eq_true] at hs
      by_cases hf : guiEligible src out selected f = true
      · rw [guiProcessGo, if_neg (by simp [hs]), if_pos hf] at he
        rcases List.mem_append.mp he with he | he
        · by_cases hk : copyOk f.1 = true
          · simp [hk] at he
          · simp only [Bool.not_eq_true] at hk
            simp [hk] at he
            subst he; rfl
        · rcases List.mem_cons.mp he with rfl | he
          · rfl
          · exact ih (t + 1) (p + 1) e he
      · rw [guiProcessGo, if_neg (by simp [hs]), if_neg hf] at he
        exact ih (t + 1) p e he

theorem filter_complete_of_shape {body : List OrgEvent} {c : OrgEvent}
    (hc : isCompleteEvent c = true)
    (hbody : ∀ e ∈ body, isCompleteEvent e = false) :
    (body ++ [c]).filter isCompleteEvent = [c] := by
  rw [List.filter_append]
  rw [List.filter_eq_nil_iff.mpr (fun e he => by simp [hbody e he])]
  simp [hc]

/-- C6: whichever executor runs, and whatever the cancellation flag and the
per-file outcomes do, the run terminates without raising, the Complete
callback is the last event of the trace and is fired exactly once, carrying
the processed count reached and the total of the count pass. -/
theorem terminal_complete_fired_exactly_once :
    (∀ (files : List (PathC × Bool)) (total : Nat) (stop : Nat → Bool),
        (organizeFiles files total stop).1.filter isCompleteEvent
          = [OrgEvent.complete (organizeFiles files total stop).2 total] ∧
        (organizeFiles files total stop).1.getLast?
          = some (OrgEvent.complete (organizeFiles files total stop).2 total)) ∧
    (∀ (src out : PathC) (selected : List (List Char))
        (copyOk : PathC → Bool) (stop : Nat → Bool)
        (walk : List (PathC × Bool)),
        ∃ totalCount,
          (runOrganizationProcess src out selected copyOk stop walk).1.filter
              isCompleteEvent
            = [OrgEvent.complete
                (runOrganizationProcess src out selected copyOk stop walk).2
                totalCount] ∧
          (runOrganizationProcess src out selected copyOk stop walk).1.getLast?
            = some (OrgEvent.complete
                (runOrganizationProcess src out selected copyOk stop walk).2
                totalCount)) := by
  constructor
  · intro files total stop
    obtain ⟨body, hb, hcb⟩ := organizeFilesGo_shape total stop files 0 0
    unfold organizeFiles
    rw [hb]
    exact ⟨filter_complete_of_shape rfl hcb, List.getLast?_concat _⟩
  · intro src out selected copyOk stop walk
    refine ⟨(guiCountGo src out selected stop walk 0 0).1, ?_, ?_⟩
    · exact filter_complete_of_shape rfl
        (guiProcessGo_no_complete src out selected copyOk _ stop walk _ 0)
    · exact List.getLast?_concat _

/-! ## C1: excludeUnknown rendering

The GUI calls get_formatted_path(template, exclude_unknown=...) at
src/archimedius_gui.py lines 997 and 1551 and
src/tests/test_media_file_paths.py tests the elision behaviour, but no
renderer among the sources accepts the flag; the definitions below model
the missing mode from the specification (section 4.3, steps 2, 4). -/

/-- Substitution pass shared by the renderer: each found placeholder is
replaced by its substitution text. -/
def substitutedTemplate (t : List Char) (m : List (List Char × List Char)) :
    List Char :=
  (findPH t).foldl
    (fun s p => replaceAll s ('{' :: (p ++ ['}'])) (substitutionText m p)) t

/-- Modelled from the spec: with excludeUnknown set, after substitution
every path segment consisting solely of the elided Unknown marker is
removed, along with the empty segments of collapsed duplicate separators. -/
def excludeUnknownSegs (t : List Char) (m : List (List Char × List Char)) :
    List (List Char) :=
  (splitSlash (substitutedTemplate t m)).filter
    (fun seg => decide (seg ≠ unknownL ∧ seg ≠ []))

/-- Modelled from the spec: the excludeUnknown rendering mode missing from
src/media_file.py; if elision empties the entire path the result falls back
to category/filename_with_extension, otherwise the surviving segments are
joined back with single separators. -/
def renderExcludeUnknown (t : List Char) (m : List (List Char × List Char))
    (category filenameWithExt : List Char) : List Char :=
  match excludeUnknownSegs t m with
  | [] => category ++ '/' :: filenameWithExt
  | segs => joinSlash segs

theorem splitSlash_ne_nil (l : List Char) : splitSlash l ≠ [] := by
  cases l with
  | nil => simp [splitSlash]
  | cons c rest =>
    simp only [splitSlash]
    by_cases h : c = '/'
    · simp [h]
    · simp only [h, if_false]
      cases splitSlash rest <;> simp

theorem mem_splitSlash_no_slash :
    ∀ (l : List Char), ∀ seg ∈ splitSlash l, '/' ∉ seg := by
  intro l
  induction l with
  | nil => intro seg hseg; simp [splitSlash] at hseg; simp [hseg]
  | cons c rest ih =>
    intro seg hseg
    simp only [splitSlash] at hseg
    by_cases h : c = '/'
    · rw [if_pos h] at hseg
      rcases List.mem_cons.mp hseg with rfl | hseg
      · simp
      · exact ih seg hseg
    · rw [if_neg h] at hseg
      cases hx : splitSlash rest with
      | nil => exact absurd hx (splitSlash_ne_nil rest)
      | cons s0 segs =>
        rw [hx] at hseg
        rcases List.mem_cons.mp hseg with rfl | hseg
        · intro hm
          rcases List.mem_cons.mp hm with hm | hm
          · exact h hm.symm
          · exact ih s0 (hx ▸ List.mem_cons_self s0 segs) hm
        · exact ih seg (hx ▸ List.mem_cons_of_mem s0 hseg)

theorem splitSlash_single (l : List Char) (hne : l ≠ [])
    (hns : '/' ∉ l) : splitSlash l = [l] := by
  induction l with
  | nil => exact absurd rfl hne
  | cons c rest ih =>
    have hc : ¬ c = '/' := fun h => hns (h ▸ List.mem_cons_self c rest)
    simp only [splitSlash, hc, if_false]
    cases hrest : rest with
    | nil => simp [splitSlash]
    | cons d rest2 =>
      have hr2 : splitSlash (d :: rest2) = [d :: rest2] := by
        rw [← hrest]
        exact ih (by rw [hrest]; simp)
          (fun hm => hns (List.mem_cons_of_mem c hm))
      rw [hr2]

theorem splitSlash_append_seg (seg : List Char) (hns : '/' ∉ seg) :
    ∀ (l : List Char) (s0 : List Char) (rest : List (List Char)),
      splitSlash l = s0 :: rest →
      splitSlash (seg ++ l) = (seg ++ s0) :: rest := by
  induction seg with
  | nil => intro l s0 rest h; simpa using h
  | cons c seg2 ih =>
    intro l s0 rest h
    have hc : ¬ c = '/' := fun hx => hns (hx ▸ List.mem_cons_self c seg2)
    have h2 := ih (fun hm => hns (List.mem_cons_of_mem c hm)) l s0 rest h
    simp only [List.cons_append, splitSlash, hc, if_false]
    have h2x : splitSlash (seg2.append l) = (seg2 ++ s0) :: rest := h2
    rw [h2x]

theorem splitSlash_join_round :
    ∀ (segs : List (List Char)), segs ≠ [] →
      (∀ s ∈ segs, s ≠ [] ∧ '/' ∉ s) →
      splitSlash (joinSlash segs) = segs := by
  intro segs
  induction segs with
  | nil => intro h; exact absurd rfl h
  | cons s rest ih =>
    intro _ hprops
    cases hrest : rest with
    | nil =>
      subst hrest
      have hs := hprops s (List.mem_cons_self s [])
      show splitSlash (joinSlash [s]) = [s]
      exact splitSlash_single s hs.1 hs.2
    | cons s2 rest2 =>
      subst hrest
      have hs := hprops s (List.mem_cons_self s (s2 :: rest2))
      have htail : splitSlash (joinSlash (s2 :: rest2)) = s2 :: rest2 :=
        ih (by simp) (fun x hx => hprops x (List.mem_cons_of_mem s hx))
      have hsplit : splitSlash ('/' :: joinSlash (s2 :: rest2))
          = [] :: s2 :: rest2 := by
        simp [splitSlash, htail]
      have hjoin : joinSlash (s :: s2 :: rest2)
          = s ++ '/' :: joinSlash (s2 :: rest2) := rfl
      rw [hjoin, splitSlash_append_seg s hs.2 _ [] (s2 :: rest2) hsplit]
      simp

/-- C1: with excludeUnknown, rendering removes every segment that is the
Unknown marker: when elision empties the whole path the result is exactly
the category/filename_with_extension fallback, and otherwise no segment of
the rendered path is literally Unknown. -/
theorem exclude_unknown_elides_and_falls_back
    (t : List Char) (m : List (List Char × List Char))
    (category filenameWithExt : List Char) :
    (excludeUnknownSegs t m = [] →
      renderExcludeUnknown t m category filenameWithExt
        = category ++ '/' :: filenameWithExt) ∧
    (excludeUnknownSegs t m ≠ [] →
      ∀ seg ∈ splitSlash (renderExcludeUnknown t m category filenameWithExt),
        seg ≠ unknownL) := by
  constructor
  · intro h
    simp [renderExcludeUnknown, h]
  · intro h seg hseg
    have hrender : renderExcludeUnknown t m category filenameWithExt
        = joinSlash (excludeUnknownSegs t m) := by
      unfold renderExcludeUnknown
      cases hx : excludeUnknownSegs t m with
      | nil => exact absurd hx h
      | cons a b => rfl
    have hprops : ∀ s ∈ excludeUnknownSegs t m, s ≠ unknownL ∧ s ≠ [] := by
      intro s hs
      have := (List.mem_filter.mp hs).2
      exact of_decide_eq_true this
    have hslash : ∀ s ∈ excludeUnknownSegs t m, '/' ∉ s := by
      intro s hs
      exact mem_splitSlash_no_slash _ s (List.mem_filter.mp hs).1
    rw [hrender, splitSlash_join_round _ h
      (fun s hs => ⟨(hprops s hs).2, hslash s hs⟩)] at hseg
    exact (hprops seg hseg).1

/-- Witness for C1: an image with no capture metadata and the camera
template renders, via the fallback, to image/cover.jpg. -/
theorem exclude_unknown_elides_witness :
    renderExcludeUnknown "{camera_make}/{camera_model}".toList []
        "image".toList "cover.jpg".toList
      = "image".toList ++ '/' :: "cover.jpg".toList :=
  (exclude_unknown_elides_and_falls_back _ _ _ _).1 (by decide)

/-! ## C8 amended: well-formed templates render without braces

The counterexample above shows the raw-brace guarantee fails for malformed
templates; this section proves the amended claim: when every brace of the
template belongs to a well-formed placeholder token and no metadata value
contains a brace, the rendered output contains no raw brace. -/

/-- Absence of raw braces in a character sequence. -/
abbrev noBr (l : List Char) : Prop := ∀ c ∈ l, c ≠ '{' ∧ c ≠ '}'

/-- Executable well-formedness checker for templates: every opening brace
starts a nonempty brace-free name closed by a closing brace, and no closing
brace occurs on its own.  The state holds the reversed name scanned so far
inside a token. -/
def checkWFAux : List Char → Option (List Char) → Bool
  | [], st => st.isNone
  | c :: rest, none =>
    if c = '{' then checkWFAux rest (some [])
    else if c = '}' then false
    else checkWFAux rest none
  | c :: rest, some acc =>
    if c = '}' then
      if acc = [] then false else checkWFAux rest none
    else if c = '{' then false
    else checkWFAux rest (some (c :: acc))

/-- Well-formedness of a whole template. -/
def checkWF (t : List Char) : Bool := checkWFAux t none

/-- Strings whose braces occur only in well-formed placeholder tokens whose
names belong to the given set. -/
inductive WFT : List (List Char) → List Char → Prop
  | nil (S : List (List Char)) : WFT S []
  | lit (S : List (List Char)) (c : Char) (rest : List Char) :
      c ≠ '{' → c ≠ '}' → WFT S rest → WFT S (c :: rest)
  | tok (S : List (List Char)) (name rest : List Char) :
      name ≠ [] → noBr name → name ∈ S →
      WFT S rest → WFT S ('{' :: (name ++ '}' :: rest))

theorem wft_mono {S : List (List Char)} {s : List Char} (h : WFT S s) :
    ∀ {S2 : List (List Char)}, S ⊆ S2 → WFT S2 s := by
  induction h with
  | nil => intro S2 _; exact WFT.nil S2
  | lit c rest hc1 hc2 hrest ih =>
    intro S2 hsub
    exact WFT.lit S2 c rest hc1 hc2 (ih hsub)
  | tok name rest hne hnb hmem hrest ih =>
    intro S2 hsub
    exact WFT.tok S2 name rest hne hnb (hsub hmem) (ih hsub)

theorem wft_noBr_append {S : List (List Char)} {xs s : List Char}
    (hxs : noBr xs) (hs : WFT S s) : WFT S (xs ++ s) := by
  induction xs with
  | nil => simpa using hs
  | cons c xs2 ih =>
    have hc := hxs c (List.mem_cons_self c xs2)
    exact WFT.lit S c (xs2 ++ s) hc.1 hc.2
      (ih (fun d hd => hxs d (List.mem_cons_of_mem c hd)))

theorem wft_nil_noBr {S : List (List Char)} {s : List Char} (h : WFT S s) :
    S = [] → noBr s := by
  induction h with
  | nil => intro _ c hc; simp at hc
  | lit c rest hc1 hc2 hrest ih =>
    intro hS d hd
    rcases List.mem_cons.mp hd with rfl | hd
    · exact ⟨hc1, hc2⟩
    · exact ih hS d hd
  | tok name rest hne hnb hmem hrest ih =>
    intro hS
    subst hS
    simp at hmem

theorem listStarts_cons_self {α : Type} [DecidableEq α] (a : α)
    (as bs : List α) : listStarts (a :: as) (a :: bs) = listStarts as bs := by
  simp [listStarts]

theorem listStarts_cons_ne {α : Type} [DecidableEq α] {a b : α}
    (h : a ≠ b) (as bs : List α) :
    listStarts (a :: as) (b :: bs) = false := by
  simp [listStarts, h]

theorem listStarts_token :
    ∀ (p : List Char), (∀ c ∈ p, c ≠ '}') →
      ∀ (name rest : List Char), (∀ c ∈ name, c ≠ '}') →
      (listStarts (p ++ ['}']) (name ++ '}' :: rest) = true ↔ p = name) := by
  intro p
  induction p with
  | nil =>
    intro _ name rest hname
    cases name with
    | nil => simp [listStarts]
    | cons c n2 =>
      have hc : ('}' : Char) ≠ c :=
        fun h => (hname c (List.mem_cons_self c n2)) h.symm
      simp [listStarts, hc]
  | cons a p2 ih =>
    intro hp name rest hname
    cases name with
    | nil =>
      have ha : a ≠ '}' := hp a (List.mem_cons_self a p2)
      simp [listStarts, ha]
    | cons c n2 =>
      by_cases hac : a = c
      · subst hac
        rw [List.cons_append, List.cons_append, listStarts_cons_self]
        rw [ih (fun d hd => hp d (List.mem_cons_of_mem a hd)) n2 rest
          (fun d hd => hname d (List.mem_cons_of_mem a hd))]
        simp
      · rw [List.cons_append, List.cons_append, listStarts_cons_ne hac]
        simp [hac]

theorem drop_token (name rest : List Char) :
    (name ++ '}' :: rest).drop (name ++ ['}']).length = rest := by
  have h : name ++ '}' :: rest = (name ++ ['}']) ++ rest := by simp
  rw [h, List.drop_left]

theorem replaceAll_skip_noLB (q rep : List Char) :
    ∀ (xs s : List Char), (∀ c ∈ xs, c ≠ '{') →
      replaceAll (xs ++ s) ('{' :: q) rep = xs ++ replaceAll s ('{' :: q) rep := by
  intro xs
  induction xs with
  | nil => intro s _; simp
  | cons c xs2 ih =>
    intro s hxs
    have hc : ('{' : Char) ≠ c :=
      fun h => (hxs c (List.mem_cons_self c xs2)) h.symm
    rw [List.cons_append, replaceAll_cons_nomatch (listStarts_cons_ne hc _ _),
      ih s (fun d hd => hxs d (List.mem_cons_of_mem c hd))]
    rfl

theorem wft_replace (p rep : List Char) (hpb : noBr p) (hrep : noBr rep) :
    ∀ {S : List (List Char)} {s : List Char}, WFT S s →
      ∀ {T : List (List Char)}, S = p :: T →
        WFT T (replaceAll s ('{' :: (p ++ ['}'])) rep) := by
  intro S s h
  induction h with
  | nil =>
    intro T hT
    rw [replaceAll_nil]
    exact WFT.nil T
  | lit c rest hc1 hc2 hrest ih =>
    intro T hT
    rw [replaceAll_cons_nomatch
      (listStarts_cons_ne (fun hx => hc1 hx.symm) _ _)]
    exact WFT.lit T c _ hc1 hc2 (ih hT)
  | tok name rest hne hnb hmem hrest ih =>
    intro T hT
    subst hT
    have hstart : listStarts ('{' :: (p ++ ['}']))
        ('{' :: (name ++ '}' :: rest))
        = listStarts (p ++ ['}']) (name ++ '}' :: rest) :=
      listStarts_cons_self _ _ _
    by_cases hpn : p = name
    · have hmatch : listStarts ('{' :: (p ++ ['}']))
          ('{' :: (name ++ '}' :: rest)) = true := by
        rw [hstart]
        exact (listStarts_token p (fun c hc => (hpb c hc).2) name rest
          (fun c hc => (hnb c hc).2)).mpr hpn
      rw [replaceAll_cons_match hmatch]
      subst hpn
      rw [drop_token]
      exact wft_noBr_append hrep (ih rfl)
    · have hnomatch : listStarts ('{' :: (p ++ ['}']))
          ('{' :: (name ++ '}' :: rest)) = false := by
        rw [hstart]
        rw [Bool.eq_false_iff]
        intro hx
        exact hpn ((listStarts_token p (fun c hc => (hpb c hc).2) name rest
          (fun c hc => (hnb c hc).2)).mp hx)
      rw [replaceAll_cons_nomatch hnomatch]
      rw [replaceAll_skip_noLB _ _ name ('}' :: rest)
        (fun c hc => (hnb c hc).1)]
      rw [replaceAll_cons_nomatch (listStarts_cons_ne (by decide) _ _)]
      refine WFT.tok T name _ hne hnb ?_ (ih rfl)
      rcases List.mem_cons.mp hmem with h | h
      · exact absurd h.symm hpn
      · exact h

theorem checkWFAux_some :
    ∀ (t : List Char) (acc : List Char), noBr acc →
      checkWFAux t (some acc) = true →
      ∃ name rest, t = name ++ '}' :: rest ∧ noBr name ∧
        acc.reverse ++ name ≠ [] ∧ checkWFAux rest none = true ∧
        findPHAux t (some acc) = (acc.reverse ++ name) :: findPHAux rest none := by
  intro t
  induction t with
  | nil => intro acc _ h; simp [checkWFAux] at h
  | cons c rest ih =>
    intro acc hacc h
    by_cases hcr : c = '}'
    · subst hcr
      rw [checkWFAux, if_pos rfl] at h
      by_cases hae : acc = []
      · rw [if_pos hae] at h; exact absurd h (by simp)
      · rw [if_neg hae] at h
        refine ⟨[], rest, by simp, by intro c hc; simp at hc, ?_, h, ?_⟩
        · simpa using fun hx => hae (by simpa using congrArg List.reverse hx)
        · rw [findPHAux, if_pos rfl, if_neg hae]
          simp
    · by_cases hcl : c = '{'
      · subst hcl
        rw [checkWFAux, if_neg (by decide), if_pos rfl] at h
        exact absurd h (by simp)
      · rw [checkWFAux, if_neg hcr, if_neg hcl] at h
        have hacc2 : noBr (c :: acc) := by
          intro d hd
          rcases List.mem_cons.mp hd with rfl | hd
          · exact ⟨hcl, hcr⟩
          · exact hacc d hd
        obtain ⟨name2, rest2, hshape, hnb2, hne2, hcheck2, hfind2⟩ :=
          ih (c :: acc) hacc2 h
        refine ⟨c :: name2, rest2, by rw [hshape]; rfl, ?_, by simp, hcheck2, ?_⟩
        · intro d hd
          rcases List.mem_cons.mp hd with rfl | hd
          · exact ⟨hcl, hcr⟩
          · exact hnb2 d hd
        · rw [findPHAux, if_neg hcr, if_neg hcl, hfind2]
          simp

theorem checkWF_wft :
    ∀ (n : Nat) (t : List Char), t.length ≤ n → checkWF t = true →
      WFT (findPH t) t ∧ ∀ p ∈ findPH t, p ≠ [] ∧ noBr p := by
  intro n
  induction n with
  | zero =>
    intro t ht _
    have : t = [] := List.eq_nil_of_length_eq_zero (Nat.le_zero.mp ht)
    subst this
    exact ⟨WFT.nil _, by intro p hp; simp [findPH, findPHAux] at hp⟩
  | succ k ih =>
    intro t ht hwf
    cases t with
    | nil => exact ⟨WFT.nil _, by intro p hp; simp [findPH, findPHAux] at hp⟩
    | cons c rest =>
      by_cases hcl : c = '{'
      · subst hcl
        rw [checkWF, checkWFAux, if_pos rfl] at hwf
        obtain ⟨name, rest2, hshape, hnb, hne, hcheck2, hfind⟩ :=
          checkWFAux_some rest [] (by intro d hd; simp at hd) hwf
        have hfindt : findPH ('{' :: rest) = name :: findPHAux rest2 none := by
          rw [findPH, findPHAux, if_pos rfl, hfind]
          simp
        have hlen : rest2.length ≤ k := by
          have := congrArg List.length hshape
          simp at this
          simp at ht
          omega
        obtain ⟨hwft2, hmem2⟩ := ih rest2 hlen hcheck2
        have hname : name ≠ [] := by simpa using hne
        constructor
        · rw [hfindt, hshape]
          exact WFT.tok _ name rest2 hname hnb (List.mem_cons_self _ _)
            (wft_mono hwft2 (List.subset_cons_self _ _))
        · intro p hp
          rw [hfindt] at hp
          rcases List.mem_cons.mp hp with rfl | hp
          · exact ⟨hname, hnb⟩
          · exact hmem2 p hp
      · by_cases hcr : c = '}'
        · subst hcr
          rw [checkWF, checkWFAux, if_neg (by decide), if_pos rfl] at hwf
          exact absurd hwf (by simp)
        · rw [checkWF, checkWFAux, if_neg hcl, if_neg hcr] at hwf
          have hlen : rest.length ≤ k := by simp at ht; omega
          obtain ⟨hwft2, hmem2⟩ := ih rest hlen hwf
          have hfindt : findPH (c :: rest) = findPH rest := by
            rw [findPH, findPHAux, if_neg hcl]
            rfl
          refine ⟨?_, ?_⟩
          · rw [hfindt]
            exact WFT.lit _ c rest hcl hcr hwft2
          · intro p hp
            rw [hfindt] at hp
            exact hmem2 p hp

theorem lookupLower_mem {m : List (List Char × List Char)} {k v : List Char}
    (h : lookupLower m k = some v) : ∃ kv, kv ∈ m ∧ kv.2 = v := by
  unfold lookupLower at h
  cases hf : m.reverse.find? (fun kv => decide (lowerL kv.1 = k)) with
  | none => rw [hf] at h; simp at h
  | some kv =>
    rw [hf] at h
    simp at h
    exact ⟨kv, List.mem_reverse.mp (List.mem_of_find?_eq_some hf), h⟩

theorem substitutionText_noBr (m : List (List Char × List Char))
    (hm : ∀ kv ∈ m, noBr kv.2) (p : List Char) :
    noBr (substitutionText m p) := by
  have hunk : noBr unknownL := by decide
  unfold substitutionText
  cases h : lookupLower m (lowerL p) with
  | none => exact hunk
  | some v =>
    show noBr (if pyStrip v = [] ∨ pyStrip v = unknownL then unknownL
      else sanitizeV v)
    by_cases hb : pyStrip v = [] ∨ pyStrip v = unknownL
    · rw [if_pos hb]; exact hunk
    · rw [if_neg hb]
      intro c hc
      rcases List.mem_map.mp hc with ⟨d, hd, hcd⟩
      by_cases hmem : memB d forbiddenChars = true
      · rw [if_pos hmem] at hcd
        cases hcd
        exact ⟨by decide, by decide⟩
      · rw [if_neg hmem] at hcd
        cases hcd
        obtain ⟨kv, hkv, rfl⟩ := lookupLower_mem h
        exact hm kv hkv _ hd

theorem substitutedTemplate_wf_noBr (m : List (List Char × List Char))
    (hm : ∀ kv ∈ m, noBr kv.2) :
    ∀ (L : List (List Char)) (s : List Char), WFT L s →
      (∀ p ∈ L, noBr p) →
      noBr (L.foldl
        (fun s p => replaceAll s ('{' :: (p ++ ['}'])) (substitutionText m p))
        s) := by
  intro L
  induction L with
  | nil => intro s h _; exact wft_nil_noBr h rfl
  | cons p L2 ih =>
    intro s h hL
    rw [List.foldl_cons]
    exact ih _
      (wft_replace p _ (hL p (List.mem_cons_self _ _))
        (substitutionText_noBr m hm p) h rfl)
      (fun q hq => hL q (List.mem_cons_of_mem p hq))

theorem mem_collapseSlashes :
    ∀ (l : List Char) (c : Char), c ∈ collapseSlashes l → c ∈ l := by
  intro l
  induction l with
  | nil => intro c hc; simp [collapseSlashes] at hc
  | cons a rest ih =>
    intro c hc
    cases rest with
    | nil => simpa [collapseSlashes] using hc
    | cons d rest2 =>
      simp only [collapseSlashes] at hc
      by_cases had : a = '/' ∧ d = '/'
      · rw [if_pos had] at hc
        exact List.mem_cons_of_mem a (ih c hc)
      · rw [if_neg had] at hc
        rcases List.mem_cons.mp hc with rfl | hc
        · exact List.mem_cons_self _ _
        · exact List.mem_cons_of_mem a (ih c hc)

theorem mem_fixTrailingDot (l : List Char) (c : Char)
    (hc : c ∈ fixTrailingDot l) : c ∈ l ∨ c = '_' := by
  unfold fixTrailingDot at hc
  by_cases h : l.getLast? = some '.'
  · rw [if_pos h] at hc
    rcases List.mem_append.mp hc with hc | hc
    · exact Or.inl ((List.dropLast_sublist l).subset hc)
    · simp at hc
      exact Or.inr hc
  · rw [if_neg h] at hc
    exact Or.inl hc

/-- C8 (amended): for every template whose braces all belong to well-formed
placeholder tokens and every attribute map whose values contain no braces,
the rendered output contains no raw opening or closing brace. -/
theorem render_no_braces_of_wellformed
    (t : List Char) (m : List (List Char × List Char)) (fb : List Char)
    (ht : checkWF t = true)
    (hm : ∀ kv ∈ m, noBr kv.2) :
    noBr (getFormattedPath t m fb) := by
  obtain ⟨hwft, hmem⟩ := checkWF_wft t.length t le_rfl ht
  rw [getFormattedPath_eq]
  intro c hc
  rcases mem_fixTrailingDot _ c hc with hc2 | rfl
  · have hc3 := mem_collapseSlashes _ c hc2
    exact substitutedTemplate_wf_noBr m hm (findPH t) t hwft
      (fun p hp => (hmem p hp).2) c hc3
  · exact ⟨by decide, by decide⟩

/-- Witness for the amended C8: a well-formed two-token template with a
brace-free metadata value renders without any raw brace. -/
theorem render_no_braces_witness :
    checkWF "{artist}/{title}".toList = true ∧
    noBr (getFormattedPath "{artist}/{title}".toList
      [("artist".toList, "AC-DC".toList)] "f.mp3".toList) :=
  ⟨by decide, render_no_braces_of_wellformed _ _ _ (by decide) (by decide)⟩
